import Mathlib

/-!
Verification of `src/plugin/convert.py`, the bookmarklet inliner.

The script reads `plugin.js`, applies four `re.sub` passes
(line comments, block comments, newlines, 4-space indentation runs),
wraps the result in a `javascript:` bookmarklet shell, writes it to
`plugin-inline.js` and copies that file to `frontend/public/`.

Texts are modelled as `List Char`.  Each regex pass is embedded as a
left-to-right scan that mirrors Python `re.sub` semantics: at every
position the engine tries the leftmost match; on a match the matched
span is removed and scanning resumes right after it, otherwise one
character is kept and scanning advances by one.
-/

/-- Python `\s` on the ASCII range (space, tab, newline, carriage
return, vertical tab, form feed); the input is ASCII source text. -/
def isSpc (c : Char) : Bool :=
  c = ' ' || c = '\t' || c = '\n' || c = '\r' || c = '\x0b' || c = '\x0c'

/-- Python `\w` on the ASCII range: letters, digits, underscore. -/
def isWrd (c : Char) : Bool :=
  ('a' ≤ c && c ≤ 'z') || ('A' ≤ c && c ≤ 'Z') || ('0' ≤ c && c ≤ '9') || c = '_'

/-- Whether the list starts with the character `b`. -/
def headIs (b : Char) : List Char → Bool
  | d :: _ => d = b
  | [] => false

/-- Whether a match of `(\s|\w)//(?!/)` starts at the head of the list:
a whitespace-or-word character, two slashes, and no third slash. -/
def isLineCommentStart : List Char → Bool
  | c :: d :: e :: rest => (isSpc c || isWrd c) && d = '/' && e = '/' && !headIs '/' rest
  | _ => false

/-- The remainder after `[^\n]*` consumed greedily: everything up to,
but not including, the next newline (or the end of the text). -/
def dropToEol (s : List Char) : List Char := s.dropWhile (fun c => c != '\n')

/-- The scan behind `re.sub(r'(\s|\w)//(?!/)[^\n]*', '', content)`: the
whole match — the preceding whitespace/word character, the two slashes
and the rest of the line — is replaced by the empty string.  The `fuel`
argument only makes the recursion structural (so that terms compute);
every step strictly shortens the text, so `s.length` fuel never runs
out. -/
def lcScan : Nat → List Char → List Char
  | 0, s => s
  | _ + 1, [] => []
  | fuel + 1, c :: cs =>
    if isLineCommentStart (c :: cs) then lcScan fuel (dropToEol (cs.drop 2))
    else c :: lcScan fuel cs

/-- `re.sub(r'(\s|\w)//(?!/)[^\n]*', '', content)`. -/
def stripLineComments (s : List Char) : List Char := lcScan s.length s

/-- Whether a match of `/\*` starts at the head of the list. -/
def isBlockStart : List Char → Bool
  | c :: d :: _ => c = '/' && d = '*'
  | _ => false

/-- Scan for the first `*/` and return the remainder after it; `none`
when the comment is never closed (then the regex has no match). -/
def findClose : List Char → Option (List Char)
  | [] => none
  | c :: cs => if c = '*' && headIs '/' cs then some (cs.drop 1) else findClose cs

/-- The scan behind `re.sub(r'/\*.*?\*/', '', content, flags=re.DOTALL)`:
from each `/*` to the nearest following `*/` (non-greedy, dot matches
newlines); an unclosed `/*` is no match and stays.  Fuel as in
`lcScan`. -/
def bcScan : Nat → List Char → List Char
  | 0, s => s
  | _ + 1, [] => []
  | fuel + 1, c :: cs =>
    if isBlockStart (c :: cs) then
      match findClose (cs.drop 1) with
      | some rem => bcScan fuel rem
      | none => c :: bcScan fuel cs
    else c :: bcScan fuel cs

/-- `re.sub(r'/\*.*?\*/', '', content, flags=re.DOTALL)`. -/
def stripBlockComments (s : List Char) : List Char := bcScan s.length s

/-- `re.sub(r'\n', '', content)`: delete every newline character. -/
def collapseNewlines (s : List Char) : List Char := s.filter (fun c => c != '\n')

/-- Whether the list starts with four consecutive space characters. -/
def isIndent (s : List Char) : Bool := s.take 4 = [' ', ' ', ' ', ' ']

/-- The scan behind `re.sub(r'    ', '', content)`: delete runs of
exactly four spaces, scanning left to right without overlap.  Fuel as
in `lcScan`. -/
def ciScan : Nat → List Char → List Char
  | 0, s => s
  | _ + 1, [] => []
  | fuel + 1, c :: cs =>
    if isIndent (c :: cs) then ciScan fuel (cs.drop 3)
    else c :: ciScan fuel cs

/-- `re.sub(r'    ', '', content)`. -/
def collapseIndent (s : List Char) : List Char := ciScan s.length s

/-- The fixed bookmarklet opening text `javascript:(()=>{`. -/
def wrapHead : List Char := "javascript:(()=>\x7b".data

/-- The fixed bookmarklet closing text `})()`. -/
def wrapTail : List Char := "\x7d)()".data

/-- `content = 'javascript:(()=>{' + content + '})()'`. -/
def wrap (s : List Char) : List Char := wrapHead ++ s ++ wrapTail

/-- The straight-line body of `convert.py` between the read and the
writes: the four `re.sub` reassignments of `content`, then the wrap. -/
def inlinerTransform (input : List Char) : List Char :=
  let content := input
  let content := stripLineComments content
  let content := stripBlockComments content
  let content := collapseNewlines content
  let content := collapseIndent content
  let content := wrap content
  content

/-- The five-step pipeline exactly as the spec orders it:
stripLineComments, then stripBlockComments, then newline removal, then
4-space-run removal, then wrap. -/
def specPipeline (s : List Char) : List Char :=
  wrap (collapseIndent (collapseNewlines (stripBlockComments (stripLineComments s))))

/-- The filesystem state the script touches: the source `plugin.js`
(`none` when missing or unreadable) and the two destinations,
`plugin-inline.js` and `frontend/public/plugin-inline.js`. -/
structure FS where
  input : Option (List Char)
  output : Option (List Char)
  frontend : Option (List Char)
deriving DecidableEq, Repr

/-- One invocation of `convert.py`: a failing `open(INPUT_FILE)` raises
before either destination is touched; a successful read transforms the
content, writes it to `plugin-inline.js` and `shutil.copy2`s that file
to the frontend path. -/
def runConvert (fs : FS) : FS :=
  match fs.input with
  | none => fs
  | some content =>
    let result := inlinerTransform content
    { fs with output := some result, frontend := some result }

/-- Whether the two characters `a`, `b` occur adjacently (in this
order) anywhere in the list. -/
def hasPair (a b : Char) : List Char → Bool
  | [] => false
  | c :: cs => (c = a && headIs b cs) || hasPair a b cs

/-- Whether a run of four consecutive spaces occurs anywhere. -/
def hasFourSpaces : List Char → Bool
  | [] => false
  | c :: cs => isIndent (c :: cs) || hasFourSpaces cs

/-! ### Scanner lemmas -/

theorem isLineCommentStart_eq_false {s : List Char}
    (h : hasPair '/' '/' s = false) : isLineCommentStart s = false := by
  match s with
  | [] => rfl
  | [_] => rfl
  | [_, _] => rfl
  | c :: d :: e :: rest =>
    by_cases hd : d = '/'
    · by_cases he : e = '/'
      · subst hd; subst he; simp [hasPair, headIs] at h
      · simp [isLineCommentStart, he]
    · simp [isLineCommentStart, hd]

theorem isBlockStart_eq_false {s : List Char}
    (h : hasPair '/' '*' s = false) : isBlockStart s = false := by
  match s with
  | [] => rfl
  | [_] => rfl
  | c :: d :: rest =>
    by_cases hc : c = '/'
    · by_cases hd : d = '*'
      · subst hc; subst hd; simp [hasPair, headIs] at h
      · simp [isBlockStart, hd]
    · simp [isBlockStart, hc]

theorem hasPair_cons_false {a b c : Char} {cs : List Char}
    (h : hasPair a b (c :: cs) = false) : hasPair a b cs = false := by
  simp only [hasPair, Bool.or_eq_false_iff] at h
  exact h.2

theorem lcScan_id : ∀ {fuel : Nat} {s : List Char}, s.length ≤ fuel →
    hasPair '/' '/' s = false → lcScan fuel s = s := by
  intro fuel
  induction fuel with
  | zero => intro s _ _; rfl
  | succ fuel ih =>
    intro s hlen h
    match s with
    | [] => rfl
    | c :: cs =>
      simp only [lcScan, isLineCommentStart_eq_false h, if_neg Bool.false_ne_true,
        List.cons.injEq, true_and]
      exact ih (by simpa using Nat.le_of_succ_le_succ (by simpa using hlen))
        (hasPair_cons_false h)

/-- No `//` anywhere: the line-comment pass is the identity. -/
theorem stripLineComments_id {s : List Char} (h : hasPair '/' '/' s = false) :
    stripLineComments s = s := lcScan_id Nat.le.refl h

theorem bcScan_id : ∀ {fuel : Nat} {s : List Char}, s.length ≤ fuel →
    hasPair '/' '*' s = false → bcScan fuel s = s := by
  intro fuel
  induction fuel with
  | zero => intro s _ _; rfl
  | succ fuel ih =>
    intro s hlen h
    match s with
    | [] => rfl
    | c :: cs =>
      simp only [bcScan, isBlockStart_eq_false h, if_neg Bool.false_ne_true,
        List.cons.injEq, true_and]
      exact ih (by simpa using Nat.le_of_succ_le_succ (by simpa using hlen))
        (hasPair_cons_false h)

/-- No `/*` anywhere: the block-comment pass is the identity. -/
theorem stripBlockComments_id {s : List Char} (h : hasPair '/' '*' s = false) :
    stripBlockComments s = s := bcScan_id Nat.le.refl h

/-- No newline anywhere: the newline pass is the identity. -/
theorem collapseNewlines_id {s : List Char} (h : '\n' ∉ s) :
    collapseNewlines s = s := by
  apply List.filter_eq_self.mpr
  intro a ha
  simp only [bne_iff_ne, ne_eq, decide_eq_true_eq]
  intro hEq
  exact h (hEq ▸ ha)

theorem hasFourSpaces_cons_false {c : Char} {cs : List Char}
    (h : hasFourSpaces (c :: cs) = false) :
    isIndent (c :: cs) = false ∧ hasFourSpaces cs = false := by
  simp only [hasFourSpaces, Bool.or_eq_false_iff] at h
  exact h

theorem ciScan_id : ∀ {fuel : Nat} {s : List Char}, s.length ≤ fuel →
    hasFourSpaces s = false → ciScan fuel s = s := by
  intro fuel
  induction fuel with
  | zero => intro s _ _; rfl
  | succ fuel ih =>
    intro s hlen h
    match s with
    | [] => rfl
    | c :: cs =>
      simp only [ciScan, (hasFourSpaces_cons_false h).1, if_neg Bool.false_ne_true,
        List.cons.injEq, true_and]
      exact ih (by simpa using Nat.le_of_succ_le_succ (by simpa using hlen))
        (hasFourSpaces_cons_false h).2

/-- No four-space run anywhere: the indentation pass is the identity. -/
theorem collapseIndent_id {s : List Char} (h : hasFourSpaces s = false) :
    collapseIndent s = s := ciScan_id Nat.le.refl h

/-! ### Claim theorems: concrete transformation facts -/

/-- Claim C1, counterexample: on `"const x = 1; // comment\nconst y = 2;"`
the line-comment pass does NOT yield `"const x = 1; \nconst y = 2;"` —
the regex match includes the `(\s|\w)` character before `//`, and the
whole match is replaced by the empty string, so the space is deleted. -/
theorem stripLineComments_example_space_not_retained :
    stripLineComments "const x = 1; // comment\nconst y = 2;".data ≠
      "const x = 1; \nconst y = 2;".data := by decide

/-- Claim C1, amended: the line-comment pass on
`"const x = 1; // comment\nconst y = 2;"` yields
`"const x = 1;\nconst y = 2;"`: the comment text AND the single
whitespace/word character preceding `//` are deleted, while the
newline is retained. -/
theorem stripLineComments_example_actual :
    stripLineComments "const x = 1; // comment\nconst y = 2;".data =
      "const x = 1;\nconst y = 2;".data := by decide

/-- Claim C2: the emitted text is exactly the five steps composed in
order — strip line comments, strip block comments, remove newlines,
remove 4-space runs, wrap. -/
theorem inlinerTransform_eq_specPipeline :
    ∀ s : List Char, inlinerTransform s = specPipeline s := fun _ => rfl

/-- Claim C4: a double-slash immediately preceded by a colon is not a
comment start (the `(\s|\w)` prerequisite fails), so
`fetch("https://example.com")` survives the line-comment pass intact. -/
theorem stripLineComments_preserves_url :
    stripLineComments "fetch(\"https://example.com\")".data =
      "fetch(\"https://example.com\")".data := by decide

/-- Claim C5: block-comment stripping removes `/* ... */` spans across
line boundaries; `"/* header\nmulti\nline */\ncode();"` becomes
`"\ncode();"`. -/
theorem stripBlockComments_multiline_example :
    stripBlockComments "/* header\nmulti\nline */\ncode();".data =
      "\ncode();".data := by decide

/-- Claim C6: the indentation pass removes exactly runs of four spaces:
eight spaces vanish entirely, three spaces are kept, and tabs are never
collapsed. -/
theorem collapseIndent_exact_four_space_runs :
    collapseIndent "        x".data = "x".data ∧
      collapseIndent "   x".data = "   x".data ∧
      collapseIndent "\t\t\t\tx".data = "\t\t\t\tx".data := by decide

/-- Claim C3: for comment-free input (no `//`, no `/*`) the whole
transform is exactly wrap after whitespace collapsing (newline removal
then 4-space-run removal). -/
theorem inlinerTransform_no_comments (s : List Char)
    (h1 : hasPair '/' '/' s = false) (h2 : hasPair '/' '*' s = false) :
    inlinerTransform s = wrap (collapseIndent (collapseNewlines s)) := by
  show wrap (collapseIndent (collapseNewlines (stripBlockComments (stripLineComments s)))) = _
  rw [stripLineComments_id h1, stripBlockComments_id h2]

/-- Witness for C3 at the concrete comment-free input `"a = 1;\n    b();"`. -/
theorem inlinerTransform_no_comments_witness :
    inlinerTransform "a = 1;\n    b();".data =
      wrap (collapseIndent (collapseNewlines "a = 1;\n    b();".data)) :=
  inlinerTransform_no_comments "a = 1;\n    b();".data (by decide) (by decide)

/-! ### Claim theorems: filesystem behavior -/

/-- Claim C8: when the source file cannot be read, the script aborts
before writing; both destinations are left exactly as they were. -/
theorem runConvert_read_error_no_writes (fs : FS) (h : fs.input = none) :
    runConvert fs = fs := by
  simp [runConvert, h]

/-- Witness for C8: a missing input with pre-existing, distinct
destination contents is left untouched. -/
theorem runConvert_read_error_no_writes_witness :
    runConvert ⟨none, some "old".data, some "other".data⟩ =
      ⟨none, some "old".data, some "other".data⟩ :=
  runConvert_read_error_no_writes ⟨none, some "old".data, some "other".data⟩ rfl

/-- Claim C9: on a successful run, the local output file receives the
transformed text and the frontend copy is byte-for-byte identical to it. -/
theorem runConvert_outputs_identical (fs : FS) (c : List Char)
    (h : fs.input = some c) :
    (runConvert fs).output = some (inlinerTransform c) ∧
      (runConvert fs).frontend = (runConvert fs).output := by
  simp [runConvert, h]

/-- Witness for C9 at a concrete filesystem state. -/
theorem runConvert_outputs_identical_witness :
    (runConvert ⟨some "x=1;".data, none, none⟩).output =
        some (inlinerTransform "x=1;".data) ∧
      (runConvert ⟨some "x=1;".data, none, none⟩).frontend =
        (runConvert ⟨some "x=1;".data, none, none⟩).output :=
  runConvert_outputs_identical ⟨some "x=1;".data, none, none⟩ "x=1;".data rfl

/-! ### Append lemmas, used to show that wrapping preserves the
"already minified" side conditions -/

theorem hasPair_append (a b : Char) (xs ys : List Char) :
    hasPair a b (xs ++ ys) =
      (hasPair a b xs || (decide (xs.getLast? = some a) && headIs b ys) ||
        hasPair a b ys) := by
  induction xs with
  | nil => simp [hasPair]
  | cons x xs ih =>
    cases xs with
    | nil => simp [hasPair, headIs, Bool.or_assoc]
    | cons y xs' =>
      have step : hasPair a b ((x :: y :: xs') ++ ys) =
          ((decide (x = a) && headIs b (y :: xs')) || hasPair a b ((y :: xs') ++ ys)) := rfl
      rw [step, ih, List.getLast?_cons_cons]
      have rhs : hasPair a b (x :: y :: xs') =
          ((decide (x = a) && headIs b (y :: xs')) || hasPair a b (y :: xs')) := rfl
      rw [rhs]
      simp only [Bool.or_assoc]

theorem hasFourSpaces_append_right {xs ys : List Char}
    (hx : hasFourSpaces xs = false) (hy : hasFourSpaces ys = false)
    (hh : headIs ' ' ys = false) : hasFourSpaces (xs ++ ys) = false := by
  induction xs with
  | nil => simpa using hy
  | cons c xs ih =>
    obtain ⟨hi, hx'⟩ := hasFourSpaces_cons_false hx
    have key : isIndent (c :: (xs ++ ys)) = false := by
      match xs with
      | [] =>
        cases ys with
        | nil => simp [isIndent]
        | cons y ys' =>
          have hy' : y ≠ ' ' := by simpa [headIs] using hh
          have ht : (c :: y :: ys').take 4 = c :: y :: ys'.take 2 := rfl
          simp [isIndent, ht, hy']
      | [d] =>
        cases ys with
        | nil => simp [isIndent]
        | cons y ys' =>
          have hy' : y ≠ ' ' := by simpa [headIs] using hh
          have ht : (c :: d :: y :: ys').take 4 = c :: d :: y :: ys'.take 1 := rfl
          simp [isIndent, ht, hy']
      | [d, e] =>
        cases ys with
        | nil => simp [isIndent]
        | cons y ys' =>
          have hy' : y ≠ ' ' := by simpa [headIs] using hh
          have ht : (c :: d :: e :: y :: ys').take 4 = [c, d, e, y] := rfl
          simp [isIndent, ht, hy']
      | d :: e :: f :: rest =>
        have ht : (c :: d :: e :: f :: (rest ++ ys)).take 4 = [c, d, e, f] := rfl
        have ht' : (c :: d :: e :: f :: rest).take 4 = [c, d, e, f] := rfl
        simp only [isIndent, ht'] at hi
        show isIndent (c :: d :: e :: f :: (rest ++ ys)) = false
        simp only [isIndent, ht]
        exact hi
    have tail := ih hx'
    show (isIndent (c :: (xs ++ ys)) || hasFourSpaces (xs ++ ys)) = false
    rw [key, tail]
    rfl

theorem hasFourSpaces_append_left {xs ys : List Char}
    (hx : hasFourSpaces xs = false) (hy : hasFourSpaces ys = false)
    (hl : xs.getLast? ≠ some ' ') : hasFourSpaces (xs ++ ys) = false := by
  induction xs with
  | nil => simpa using hy
  | cons c xs ih =>
    obtain ⟨hi, hx'⟩ := hasFourSpaces_cons_false hx
    have hl' : xs.getLast? ≠ some ' ' := by
      cases xs with
      | nil => simp
      | cons z zs =>
        rw [List.getLast?_cons_cons] at hl
        exact hl
    have key : isIndent (c :: (xs ++ ys)) = false := by
      match xs with
      | [] =>
        have hc : c ≠ ' ' := fun hEq => hl (by simp [hEq])
        have ht : (c :: ys).take 4 = c :: ys.take 3 := rfl
        simp [isIndent, ht, hc]
      | [d] =>
        have hd : d ≠ ' ' := fun hEq => hl (by simp [hEq])
        have ht : (c :: d :: ys).take 4 = c :: d :: ys.take 2 := rfl
        simp [isIndent, ht, hd]
      | [d, e] =>
        have he : e ≠ ' ' := fun hEq => hl (by simp [hEq])
        have ht : (c :: d :: e :: ys).take 4 = c :: d :: e :: ys.take 1 := rfl
        simp [isIndent, ht, he]
      | d :: e :: f :: rest =>
        have ht : (c :: d :: e :: f :: (rest ++ ys)).take 4 = [c, d, e, f] := rfl
        have ht' : (c :: d :: e :: f :: rest).take 4 = [c, d, e, f] := rfl
        simp only [isIndent, ht'] at hi
        show isIndent (c :: d :: e :: f :: (rest ++ ys)) = false
        simp only [isIndent, ht]
        exact hi
    have tail := ih hx' hl'
    show (isIndent (c :: (xs ++ ys)) || hasFourSpaces (xs ++ ys)) = false
    rw [key, tail]
    rfl

theorem not_mem_wrap {t : List Char} (h : '\n' ∉ t) : '\n' ∉ wrap t := by
  intro hm
  simp only [wrap] at hm
  rcases List.mem_append.mp hm with hm1 | hm2
  · rcases List.mem_append.mp hm1 with hma | hmb
    · exact absurd hma (by decide)
    · exact h hmb
  · exact absurd hm2 (by decide)

theorem hasPair_wrap_line {t : List Char} (h : hasPair '/' '/' t = false) :
    hasPair '/' '/' (wrap t) = false := by
  have e1 : hasPair '/' '/' wrapHead = false := by decide
  have e2 : decide (wrapHead.getLast? = some '/') = false := by decide
  have e3 : headIs '/' wrapTail = false := by decide
  have e4 : hasPair '/' '/' wrapTail = false := by decide
  rw [wrap, List.append_assoc, hasPair_append, hasPair_append]
  simp [e1, e2, e3, e4, h]

theorem hasPair_wrap_block {t : List Char} (h : hasPair '/' '*' t = false) :
    hasPair '/' '*' (wrap t) = false := by
  have e1 : hasPair '/' '*' wrapHead = false := by decide
  have e2 : decide (wrapHead.getLast? = some '/') = false := by decide
  have e3 : headIs '*' wrapTail = false := by decide
  have e4 : hasPair '/' '*' wrapTail = false := by decide
  rw [wrap, List.append_assoc, hasPair_append, hasPair_append]
  simp [e1, e2, e3, e4, h]

theorem hasFourSpaces_wrap {t : List Char} (h : hasFourSpaces t = false) :
    hasFourSpaces (wrap t) = false := by
  rw [wrap, List.append_assoc]
  apply hasFourSpaces_append_left (by decide)
  · exact hasFourSpaces_append_right h (by decide) (by decide)
  · decide

/-- Claim C7: on a single-line, comment-free text with no 4-space run,
the transform is exactly `wrap`; running it a second time wraps again —
the wrapper is doubled, so wrapping is not idempotent. -/
theorem inlinerTransform_minified_double_wrap (t : List Char)
    (h0 : '\n' ∉ t) (h1 : hasPair '/' '/' t = false)
    (h2 : hasPair '/' '*' t = false) (h3 : hasFourSpaces t = false) :
    inlinerTransform t = wrap t ∧
      inlinerTransform (inlinerTransform t) = wrap (wrap t) := by
  have base : ∀ u : List Char, '\n' ∉ u → hasPair '/' '/' u = false →
      hasPair '/' '*' u = false → hasFourSpaces u = false →
      inlinerTransform u = wrap u := by
    intro u u0 u1 u2 u3
    show wrap (collapseIndent (collapseNewlines (stripBlockComments (stripLineComments u)))) = _
    rw [stripLineComments_id u1, stripBlockComments_id u2, collapseNewlines_id u0,
      collapseIndent_id u3]
  have hw := base t h0 h1 h2 h3
  refine ⟨hw, ?_⟩
  rw [hw]
  exact base (wrap t) (not_mem_wrap h0) (hasPair_wrap_line h1)
    (hasPair_wrap_block h2) (hasFourSpaces_wrap h3)

/-- Witness for C7 at the concrete already-minified text `x=1;`. -/
theorem inlinerTransform_minified_double_wrap_witness :
    inlinerTransform "x=1;".data = wrap "x=1;".data ∧
      inlinerTransform (inlinerTransform "x=1;".data) = wrap (wrap "x=1;".data) :=
  inlinerTransform_minified_double_wrap "x=1;".data (by decide) (by decide)
    (by decide) (by decide)

/-! ### Space-run arithmetic for the indentation pass -/

theorem ciScan_congr : ∀ {n m : Nat} {s : List Char}, s.length ≤ n → s.length ≤ m →
    ciScan n s = ciScan m s := by
  intro n
  induction n with
  | zero =>
    intro m s hn _
    have hs : s = [] := List.eq_nil_of_length_eq_zero (Nat.le_zero.mp hn)
    subst hs
    cases m <;> rfl
  | succ n ih =>
    intro m s hn hm
    match s with
    | [] => cases m <;> rfl
    | c :: cs =>
      match m with
      | 0 => exact absurd hm (by simp)
      | m + 1 =>
        have hn' : cs.length ≤ n := by simpa using Nat.le_of_succ_le_succ (by simpa using hn)
        have hm' : cs.length ≤ m := by simpa using Nat.le_of_succ_le_succ (by simpa using hm)
        show (if isIndent (c :: cs) then ciScan n (cs.drop 3) else c :: ciScan n cs) =
          (if isIndent (c :: cs) then ciScan m (cs.drop 3) else c :: ciScan m cs)
        by_cases hi : isIndent (c :: cs)
        · rw [if_pos hi, if_pos hi]
          have hd : (cs.drop 3).length ≤ cs.length := by simp
          exact ih (by omega) (by omega)
        · rw [if_neg hi, if_neg hi]
          exact congrArg _ (ih hn' hm')

theorem ciScan_replicate : ∀ {fuel n : Nat}, n ≤ fuel →
    ciScan fuel (List.replicate n ' ') = List.replicate (n % 4) ' ' := by
  intro fuel
  induction fuel with
  | zero =>
    intro n hn
    have : n = 0 := Nat.le_zero.mp hn
    subst this
    rfl
  | succ fuel ih =>
    intro n hn
    by_cases h4 : 4 ≤ n
    · obtain ⟨m, rfl⟩ : ∃ m, n = m + 4 := ⟨n - 4, by omega⟩
      have hrep : List.replicate (m + 4) ' ' =
          ' ' :: ' ' :: ' ' :: ' ' :: List.replicate m ' ' := by
        rw [Nat.add_comm, List.replicate_add]
        rfl
      rw [hrep]
      show (if isIndent (' ' :: ' ' :: ' ' :: ' ' :: List.replicate m ' ') then
          ciScan fuel ((' ' :: ' ' :: ' ' :: List.replicate m ' ').drop 3)
        else ' ' :: ciScan fuel (' ' :: ' ' :: ' ' :: List.replicate m ' ')) = _
      rw [if_pos (by rfl)]
      rw [show (' ' :: ' ' :: ' ' :: List.replicate m ' ').drop 3 = List.replicate m ' '
        from rfl]
      rw [ih (by omega), Nat.add_mod_right]
    · have hid : hasFourSpaces (List.replicate n ' ') = false := by
        interval_cases n <;> decide
      rw [ciScan_id (by simpa using hn) hid, Nat.mod_eq_of_lt (by omega)]

theorem ciScan_run : ∀ {fuel n : Nat} {c : Char} {t : List Char}, c ≠ ' ' →
    n + t.length + 1 ≤ fuel →
    ciScan fuel (List.replicate n ' ' ++ c :: t) =
      List.replicate (n % 4) ' ' ++ c :: collapseIndent t := by
  intro fuel
  induction fuel with
  | zero => intro n c t _ hlen; omega
  | succ fuel ih =>
    intro n c t hc hlen
    by_cases h4 : 4 ≤ n
    · obtain ⟨m, rfl⟩ : ∃ m, n = m + 4 := ⟨n - 4, by omega⟩
      have hrep : List.replicate (m + 4) ' ' ++ c :: t =
          ' ' :: ' ' :: ' ' :: ' ' :: (List.replicate m ' ' ++ c :: t) := by
        rw [Nat.add_comm, List.replicate_add]
        rfl
      rw [hrep]
      show (if isIndent (' ' :: ' ' :: ' ' :: ' ' :: (List.replicate m ' ' ++ c :: t)) then
          ciScan fuel ((' ' :: ' ' :: ' ' :: (List.replicate m ' ' ++ c :: t)).drop 3)
        else ' ' :: ciScan fuel (' ' :: ' ' :: ' ' :: (List.replicate m ' ' ++ c :: t))) = _
      rw [if_pos (by rfl)]
      rw [show (' ' :: ' ' :: ' ' :: (List.replicate m ' ' ++ c :: t)).drop 3 =
        List.replicate m ' ' ++ c :: t from rfl]
      rw [ih hc (by omega), Nat.add_mod_right]
    · interval_cases n
      · have hi : isIndent (c :: t) = false := by
          have e : (c :: t).take 4 = c :: t.take 3 := rfl
          simp [isIndent, e, hc]
        show (if isIndent (c :: t) then ciScan fuel (t.drop 3)
          else c :: ciScan fuel t) = _
        rw [if_neg (by simp [hi])]
        have : ciScan fuel t = collapseIndent t := ciScan_congr (by omega) (by omega)
        rw [this]
        rfl
      · have e1 : List.replicate 1 ' ' ++ c :: t = ' ' :: c :: t := rfl
        rw [e1]
        have hi : isIndent (' ' :: c :: t) = false := by
          have e : (' ' :: c :: t).take 4 = ' ' :: c :: t.take 2 := rfl
          simp [isIndent, e, hc]
        show (if isIndent (' ' :: c :: t) then ciScan fuel ((c :: t).drop 3)
          else ' ' :: ciScan fuel (c :: t)) = _
        rw [if_neg (by simp [hi])]
        have hinner := ih (n := 0) (c := c) (t := t) hc (by omega)
        rw [show List.replicate 0 ' ' ++ c :: t = c :: t from rfl] at hinner
        rw [hinner]
        rfl
      · have e1 : List.replicate 2 ' ' ++ c :: t = ' ' :: ' ' :: c :: t := rfl
        rw [e1]
        have hi : isIndent (' ' :: ' ' :: c :: t) = false := by
          have e : (' ' :: ' ' :: c :: t).take 4 = ' ' :: ' ' :: c :: t.take 1 := rfl
          simp [isIndent, e, hc]
        show (if isIndent (' ' :: ' ' :: c :: t) then ciScan fuel ((' ' :: c :: t).drop 3)
          else ' ' :: ciScan fuel (' ' :: c :: t)) = _
        rw [if_neg (by simp [hi])]
        have hinner := ih (n := 1) (c := c) (t := t) hc (by omega)
        rw [show List.replicate 1 ' ' ++ c :: t = ' ' :: c :: t from rfl] at hinner
        rw [hinner]
        rfl
      · have e1 : List.replicate 3 ' ' ++ c :: t = ' ' :: ' ' :: ' ' :: c :: t := rfl
        rw [e1]
        have hi : isIndent (' ' :: ' ' :: ' ' :: c :: t) = false := by
          have e : (' ' :: ' ' :: ' ' :: c :: t).take 4 = [' ', ' ', ' ', c] := rfl
          simp [isIndent, e, hc]
        show (if isIndent (' ' :: ' ' :: ' ' :: c :: t) then
            ciScan fuel ((' ' :: ' ' :: c :: t).drop 3)
          else ' ' :: ciScan fuel (' ' :: ' ' :: c :: t)) = _
        rw [if_neg (by simp [hi])]
        have hinner := ih (n := 2) (c := c) (t := t) hc (by omega)
        rw [show List.replicate 2 ' ' ++ c :: t = ' ' :: ' ' :: c :: t from rfl] at hinner
        rw [hinner]
        rfl

/-- Claim C10: the indentation pass sends a run of `n` spaces at the
start of the text (closed off by a non-space character, or by the end
of the text) to exactly `n % 4` spaces: 4-space blocks are removed
left to right without overlap, and the `n % 4` leftover spaces stay. -/
theorem collapseIndent_run_mod_four :
    (∀ n : Nat, collapseIndent (List.replicate n ' ') = List.replicate (n % 4) ' ') ∧
      (∀ (n : Nat) (c : Char) (t : List Char), c ≠ ' ' →
        collapseIndent (List.replicate n ' ' ++ c :: t) =
          List.replicate (n % 4) ' ' ++ c :: collapseIndent t) := by
  constructor
  · intro n
    show ciScan (List.replicate n ' ').length _ = _
    rw [List.length_replicate]
    exact ciScan_replicate Nat.le.refl
  · intro n c t hc
    show ciScan (List.replicate n ' ' ++ c :: t).length _ = _
    apply ciScan_run hc
    simp
    omega

/-- Witness for C10: five spaces collapse to one, seven to three. -/
theorem collapseIndent_run_mod_four_witness :
    collapseIndent (List.replicate 5 ' ' ++ 'x' :: []) =
        List.replicate (5 % 4) ' ' ++ 'x' :: collapseIndent [] ∧
      collapseIndent (List.replicate 7 ' ' ++ 'x' :: []) =
        List.replicate (7 % 4) ' ' ++ 'x' :: collapseIndent [] :=
  ⟨collapseIndent_run_mod_four.2 5 'x' [] (by decide),
    collapseIndent_run_mod_four.2 7 'x' [] (by decide)⟩
